import Mathlib

/-!
Verification development for the scotty index engine (src/index.rs).

The Rust module persists two structures in a sled database:
  * a `paths` tree (the Path Ledger) mapping an absolute path string to the
    bincode-serialized timestamp of its last visit, and
  * a `main` tree holding, under the fixed key `INDEX_KEY`, one serialized
    `fst::Set` (the Membership Index): the sorted, deduplicated set of all
    currently indexed path strings.

We embed path strings as lists of characters, the Ledger as a key-sorted
association list (sled trees are byte-ordered maps), and the fst set as a
strictly sorted list of strings.  Filesystem facts (`is_dir`, `is_absolute`)
and the clock are inputs of `Index.add`; the clangd fuzzy scorer is an
external crate and is passed to `Index.find_one` as a function argument.
-/

namespace Scotty

/-- Path strings, compared lexicographically by character exactly as the fst
set compares byte strings. -/
abbrev Str : Type := List Char

/-- The strict lexicographic order used for fst-set keys. -/

def strLt (a b : Str) : Prop := List.Lex (· < ·) a b

instance : DecidableRel strLt := fun a b => List.Lex.decidableRel _ a b

abbrev SortedStrs (l : List Str) : Prop := List.Pairwise strLt l

/-- Embedding of `merge_fst_sets`: the ordered union stream of two fst sets
(`paths_set.op().add(delta_set.stream()).union()`), rebuilt into a new set. -/

def merge_fst_sets : List Str → List Str → List Str
  | [], ys => ys
  | x :: xs, [] => x :: xs
  | x :: xs, y :: ys =>
    if strLt x y then x :: merge_fst_sets xs (y :: ys)
    else if strLt y x then y :: merge_fst_sets (x :: xs) ys
    else x :: merge_fst_sets xs ys
termination_by a b => a.length + b.length

/-- Embedding of `remove_fst_set`: the ordered difference stream
(`paths_set.op().add(delta_set.stream()).difference()`). -/

def remove_fst_set : List Str → List Str → List Str
  | [], _ => []
  | x :: xs, [] => x :: xs
  | x :: xs, y :: ys =>
    if strLt x y then x :: remove_fst_set xs (y :: ys)
    else if strLt y x then remove_fst_set (x :: xs) ys
    else remove_fst_set xs ys
termination_by a b => a.length + b.length

abbrev Ledger : Type := List (Str × Nat)

def ledgerKeys (l : Ledger) : List Str := l.map Prod.fst

/-- Key-sortedness: the representation invariant of a sled tree. -/

abbrev LedgerSorted (l : Ledger) : Prop := List.Pairwise strLt (ledgerKeys l)

/-- sled `Tree::insert`: upsert a key, returning the previous value if the key
was already present. -/

def ledgerInsert : Ledger → Str → Nat → Option Nat × Ledger
  | [], p, t => (none, [(p, t)])
  | (k, v) :: rest, p, t =>
    if strLt p k then (none, (p, t) :: (k, v) :: rest)
    else if strLt k p then
      let r := ledgerInsert rest p t
      (r.1, (k, v) :: r.2)
    else (some v, (p, t) :: rest)

/-- sled `Tree::remove`: delete a key, returning the previous value if the key
was present. -/

def ledgerRemove : Ledger → Str → Option Nat × Ledger
  | [], _ => (none, [])
  | (k, v) :: rest, p =>
    if p = k then (some v, rest)
    else
      let r := ledgerRemove rest p
      (r.1, (k, v) :: r.2)

/-- sled `Tree::get`. -/

def ledgerGet : Ledger → Str → Option Nat
  | [], _ => none
  | (k, v) :: rest, p => if p = k then some v else ledgerGet rest p

inductive IndexError where
  | noResults (pattern : Str)
  | pathDoesNotExist (path : Str)
  | relativePath (path : Str)
  | badDataDirectory
deriving DecidableEq

inductive EngineError where
  | index (e : IndexError)
  | regexBuild
deriving DecidableEq

/-- The persisted state: the `paths` tree and, under the fixed key, the
serialized fst set of the `main` tree (`none` when no index blob was ever
written). -/

structure IndexState where
  paths : Ledger
  main : Option (List Str)
deriving DecidableEq

/-- The fst set read out of the `main` tree: `Set::default()` (the empty set)
when no blob is stored under the index key. -/

def indexList (st : IndexState) : List Str := st.main.getD []

def emptyState : IndexState := { paths := [], main := none }

/-- Embedding of `Index::add`.  `pathIsDir` and `pathIsAbsolute` are the
results of the filesystem checks `path_buf.is_dir()` / `is_absolute()`, and
`now` is the current clock value.  Returns the call's result together with the
post-state; the two validation failures return before any mutation. -/

def Index.add (st : IndexState) (pathIsDir pathIsAbsolute : Bool) (p : Str) (now : Nat) :
    Except EngineError Unit × IndexState :=
  match pathIsDir, pathIsAbsolute with
  | false, _ => (.error (.index (.pathDoesNotExist p)), st)
  | true, false => (.error (.index (.relativePath p)), st)
  | true, true =>
    match (ledgerInsert st.paths p now).1 with
    | none =>
      (.ok (), { paths := (ledgerInsert st.paths p now).2,
                 main := some (merge_fst_sets (indexList st) [p]) })
    | some _ => (.ok (), { paths := (ledgerInsert st.paths p now).2, main := st.main })

/-- Embedding of `Index::delete`: remove from the Ledger; only when an entry
was actually removed, rebuild the fst set by the difference merge. -/

def Index.delete (st : IndexState) (p : Str) : Except EngineError Unit × IndexState :=
  match (ledgerRemove st.paths p).1 with
  | none => (.ok (), { paths := (ledgerRemove st.paths p).2, main := st.main })
  | some _ =>
    (.ok (), { paths := (ledgerRemove st.paths p).2,
               main := some (remove_fst_set (indexList st) [p]) })

/-- Embedding of `Index::get_timestamp`. -/

def Index.get_timestamp (st : IndexState) (p : Str) : Option Nat :=
  ledgerGet st.paths p

/-- One mutating call against the engine. -/

inductive Op where
  | add (pathIsDir pathIsAbsolute : Bool) (p : Str) (now : Nat)
  | delete (p : Str)

def runOp (st : IndexState) : Op → Except EngineError Unit × IndexState
  | .add d a p t => Index.add st d a p t
  | .delete p => Index.delete st p

/-- Run a sequence of calls, requiring every call to succeed. -/

def runOps : IndexState → List Op → Option IndexState
  | st, [] => some st
  | st, op :: ops =>
    match runOp st op with
    | (.ok _, st') => runOps st' ops
    | (.error _, _) => none

/-- The cross-structure invariant: both persisted structures are sorted and
the fst set's elements are exactly the Ledger's keys. -/

def StateWF (st : IndexState) : Prop :=
  LedgerSorted st.paths ∧ SortedStrs (indexList st) ∧
    ∀ x, x ∈ indexList st ↔ x ∈ ledgerKeys st.paths

/-! ### The query layer (`Index::search` and friends) -/

/-- Embedding of `fst::automaton::Subsequence`: the greedy matcher accepting
exactly the strings that contain the target's characters in order (not
necessarily contiguously). -/
def subseq : Str → Str → Bool
  | [], _ => true
  | _ :: _, [] => false
  | t :: ts, c :: cs => if t = c then subseq ts cs else subseq (t :: ts) cs

/-- One atom of the compiled query regex `.*{target}.*`. -/
inductive QAtom where
  | lit (c : Char)
  | anyc
deriving DecidableEq

/-- Metacharacters of the regex grammar: interpolated into the pattern
`.*{target}.*` they do not stand for themselves. -/
def isMeta (c : Char) : Bool :=
  c = '.' || c = '*' || c = '+' || c = '?' || c = '(' || c = ')' || c = '[' || c = ']' ||
    c = Char.ofNat 123 || c = Char.ofNat 125 || c = '|' || c = '^' || c = '$' || c = '\\'

/-- Modelled compilation of
`Builder::new().case_insensitive(true).build(".*{target}.*")`:
a plain character becomes a case-folded literal atom, `.` becomes the
any-character atom, and any other metacharacter makes the build fail (e.g. an
unbalanced `(` is a regex parse error; the model treats the remaining,
rarely-meaningful metacharacters conservatively as failures too — no theorem
below depends on them). -/
def parseAtoms : Str → Option (List QAtom)
  | [] => some []
  | c :: cs =>
    if c = '.' then (parseAtoms cs).map fun as => QAtom.anyc :: as
    else if isMeta c then none
    else (parseAtoms cs).map fun as => QAtom.lit c.toLower :: as

/-- Case-insensitive atom match (the regex is compiled case-insensitively, so
literals compare case-folded). -/
def atomMatch : QAtom → Char → Bool
  | .lit c, d => decide (c = d.toLower)
  | .anyc, _ => true

/-- Do the atoms match a prefix of `s`? -/
def atomsPref : List QAtom → Str → Bool
  | [], _ => true
  | _ :: _, [] => false
  | a :: as, c :: cs => atomMatch a c && atomsPref as cs

/-- Acceptance of `.*atoms.*`: the atoms match a contiguous run somewhere in
`s`. -/
def atomsSub (atoms : List QAtom) : Str → Bool
  | [] => atomsPref atoms []
  | c :: cs => atomsPref atoms (c :: cs) || atomsSub atoms cs

/-- Embedding of `Index::search`: short-circuit the empty target, read the
fst set (empty when no blob is stored), build the query automaton
`Subsequence(target) ∪ caseInsensitive(".*target.*")`, intersect with the
complement of the exact matcher for the excluded path when given, and stream
out every accepted key of the set (in sorted stream order). -/
def Index.search (st : IndexState) (target : Str) (exclude : Option Str) :
    Except EngineError (List Str) :=
  if target = [] then .ok []
  else
    match parseAtoms target with
    | none => .error .regexBuild
    | some atoms =>
      match exclude with
      | some p =>
        .ok ((indexList st).filter fun s =>
          (subseq target s || atomsSub atoms s) && decide (s ≠ p))
      | none => .ok ((indexList st).filter fun s => subseq target s || atomsSub atoms s)

/-- Embedding of `Index::find_all`: the search results, each converted by
`PathBuf::from` (identity on the underlying string). -/
def Index.find_all (st : IndexState) (target : Str) (exclude : Option Str) :
    Except EngineError (List Str) :=
  (Index.search st target exclude).map fun result => result.map fun s => s

/-! ### Scoring (`find_one`, `get_best_score`) -/

/-- Embedding of the `Score` struct; the derived `Ord` compares
`(score, timestamp, path)` lexicographically with `None` timestamps first. -/
structure Score where
  score : Int
  timestamp : Option Nat
  path : Str
deriving DecidableEq

/-- The derived `Ord` on `Option<SystemTime>`: `None < Some(_)`. -/
def optLt : Option Nat → Option Nat → Bool
  | none, some _ => true
  | some a, some b => decide (a < b)
  | _, none => false

/-- Non-strict version of `optLt`, used to state recency facts. -/
def optLe (a b : Option Nat) : Bool := optLt a b || decide (a = b)

/-- The derived strict `Ord` on `Score`. -/
def scoreLt (a b : Score) : Bool :=
  decide (a.score < b.score) ||
    (decide (a.score = b.score) &&
      (optLt a.timestamp b.timestamp ||
        (decide (a.timestamp = b.timestamp) && decide (strLt a.path b.path))))

/-- The derived non-strict `Ord` on `Score`. -/
def scoreLe (a b : Score) : Bool := scoreLt a b || decide (a = b)

/-- Sortedness with respect to the derived `Score` order. -/
abbrev SortedScores (l : List Score) : Prop :=
  List.Pairwise (fun a b => scoreLe a b = true) l

/-- One step of `Vec::sort`: insert into a sorted list. -/
def insertScore (a : Score) : List Score → List Score
  | [] => [a]
  | b :: bs => if scoreLe a b then a :: b :: bs else b :: insertScore a bs

/-- `Vec::sort` with the derived total order.  The records sorted here are
pairwise distinct, so any correct sort produces this list. -/
def sortScores : List Score → List Score
  | [] => []
  | a :: as => insertScore a (sortScores as)

/-- Embedding of `score_results`: the clangd fuzzy score of each candidate
against the target, `unwrap_or_default()` turning a non-match into 0.
`scorer` stands for the external `ClangdMatcher::fuzzy_match`. -/
def score_results (scorer : Str → Str → Option Int) (results : List Str) (target : Str) :
    List Score :=
  results.map fun item =>
    { path := item, score := (scorer item target).getD 0, timestamp := none }

/-- Embedding of `Index::get_best_score`: sort, keep the maximal-score ties,
fetch Ledger timestamps for the ties only when there are at least two, sort
again and pop the maximum.  The second component records which paths had
their timestamp fetched from the database (empty when no tie-break was
needed), making the I/O-minimization claim statable. -/
def Index.get_best_score (st : IndexState) (results : List Score) :
    Option Score × List Str :=
  match results with
  | [] => (none, [])
  | _ :: _ =>
    let sorted := sortScores results
    let maxScore := ((sorted.getLast?).map Score.score).getD 0
    let tied := sorted.filter fun x => decide (x.score = maxScore)
    if 1 < tied.length then
      let fetched := tied.map fun x => { x with timestamp := Index.get_timestamp st x.path }
      ((sortScores fetched).getLast?, tied.map Score.path)
    else (tied.getLast?, [])

/-- Embedding of `Index::find_one`: empty-target short-circuit, search, score
the results and select the best. -/
def Index.find_one (st : IndexState) (scorer : Str → Str → Option Int) (target : Str)
    (exclude : Option Str) : Except EngineError (Option Str) :=
  if target = [] then .ok none
  else
    match Index.search st target exclude with
    | .error e => .error e
    | .ok results =>
      .ok ((Index.get_best_score st (score_results scorer results target)).1.map Score.path)

/-! ### Specification-side predicates (used to state the matching claims) -/

/-- Spec side: the target occurs at the beginning of `s` as a contiguous,
case-insensitive run. -/
def prefCI : Str → Str → Bool
  | [], _ => true
  | _ :: _, [] => false
  | a :: as, b :: bs => decide (a.toLower = b.toLower) && prefCI as bs

/-- Spec side: the target occurs somewhere in `s` as a contiguous,
case-insensitive run of characters. -/
def containsCI (t : Str) : Str → Bool
  | [] => prefCI t []
  | c :: cs => prefCI t (c :: cs) || containsCI t cs

/-- A constant scorer used to instantiate theorems at concrete inputs. -/
def constScorer : Str → Str → Option Int := fun _ _ => some 1

/-! ### Theorems -/

theorem strLt_irrefl (a : Str) : ¬ strLt a a := by
  have : IsIrrefl Str (List.Lex (· < ·)) := ⟨fun l h => by
    induction l with
    | nil => cases h
    | cons c cs ih =>
      cases h with
      | cons h => exact ih h
      | rel h => exact lt_irrefl c h⟩
  exact this.irrefl a

theorem strLt_trichotomy (a b : Str) : strLt a b ∨ a = b ∨ strLt b a :=
  (List.Lex.isTrichotomous (· < ·)).trichotomous a b

theorem strLt_asymm {a b : Str} (h : strLt a b) : ¬ strLt b a :=
  (List.Lex.isAsymm (· < ·)).asymm a b h

theorem strLt_trans {a b c : Str} (h₁ : strLt a b) (h₂ : strLt b c) : strLt a c := by
  induction h₁ generalizing c with
  | nil =>
    cases h₂ with
    | cons _ => exact List.Lex.nil
    | rel _ => exact List.Lex.nil
  | @cons x l₁ l₂ h ih =>
    cases h₂ with
    | cons h' => exact List.Lex.cons (ih h')
    | rel h' => exact List.Lex.rel h'
  | @rel x l₁ y l₂ h =>
    cases h₂ with
    | cons _ => exact List.Lex.rel h
    | rel h' => exact List.Lex.rel (lt_trans h h')

theorem strLt_of_ne_of_not_gt {a b : Str} (h₁ : ¬ strLt a b) (h₂ : ¬ strLt b a) : a = b :=
  ((strLt_trichotomy a b).resolve_left h₁).resolve_right h₂

/-- Strictly-sorted, hence deduplicated: the representation invariant of an
`fst::Set`'s key list. -/

theorem mem_merge_fst_sets (x : Str) :
    ∀ a b : List Str, (x ∈ merge_fst_sets a b ↔ x ∈ a ∨ x ∈ b)
  | [], ys => by simp [merge_fst_sets]
  | a :: as, [] => by simp [merge_fst_sets]
  | a :: as, b :: bs => by
    by_cases h₁ : strLt a b
    · rw [merge_fst_sets, if_pos h₁]
      simp only [List.mem_cons, mem_merge_fst_sets x as (b :: bs)]
      tauto
    · by_cases h₂ : strLt b a
      · rw [merge_fst_sets, if_neg h₁, if_pos h₂]
        simp only [List.mem_cons, mem_merge_fst_sets x (a :: as) bs]
        tauto
      · have hab : a = b := strLt_of_ne_of_not_gt h₁ h₂
        rw [merge_fst_sets, if_neg h₁, if_neg h₂]
        simp only [List.mem_cons, mem_merge_fst_sets x as bs]
        subst hab
        tauto
termination_by a b => a.length + b.length

theorem sorted_merge_fst_sets :
    ∀ a b : List Str, SortedStrs a → SortedStrs b → SortedStrs (merge_fst_sets a b)
  | [], ys, _, hb => by simpa [merge_fst_sets] using hb
  | a :: as, [], ha, _ => by simpa [merge_fst_sets] using ha
  | a :: as, b :: bs, ha, hb => by
    simp only [List.pairwise_cons] at ha hb
    by_cases h₁ : strLt a b
    · rw [merge_fst_sets, if_pos h₁]
      refine List.pairwise_cons.mpr
        ⟨?_, sorted_merge_fst_sets as (b :: bs) ha.2 (List.pairwise_cons.mpr hb)⟩
      intro z hz
      rcases (mem_merge_fst_sets z as (b :: bs)).mp hz with h | h
      · exact ha.1 z h
      · rcases List.mem_cons.mp h with rfl | h
        · exact h₁
        · exact strLt_trans h₁ (hb.1 z h)
    · by_cases h₂ : strLt b a
      · rw [merge_fst_sets, if_neg h₁, if_pos h₂]
        refine List.pairwise_cons.mpr
          ⟨?_, sorted_merge_fst_sets (a :: as) bs (List.pairwise_cons.mpr ha) hb.2⟩
        intro z hz
        rcases (mem_merge_fst_sets z (a :: as) bs).mp hz with h | h
        · rcases List.mem_cons.mp h with rfl | h
          · exact h₂
          · exact strLt_trans h₂ (ha.1 z h)
        · exact hb.1 z h
      · have hab : a = b := strLt_of_ne_of_not_gt h₁ h₂
        rw [merge_fst_sets, if_neg h₁, if_neg h₂]
        refine List.pairwise_cons.mpr ⟨?_, sorted_merge_fst_sets as bs ha.2 hb.2⟩
        intro z hz
        rcases (mem_merge_fst_sets z as bs).mp hz with h | h
        · exact ha.1 z h
        · exact hab ▸ hb.1 z h
termination_by a b => a.length + b.length

theorem remove_fst_set_nil (a : List Str) : remove_fst_set a [] = a := by
  cases a <;> simp [remove_fst_set]

theorem nil_remove_fst_set (b : List Str) : remove_fst_set [] b = [] := by
  cases b <;> simp [remove_fst_set]

theorem mem_remove_fst_set (x : Str) :
    ∀ a b : List Str, SortedStrs a → SortedStrs b →
      (x ∈ remove_fst_set a b ↔ x ∈ a ∧ x ∉ b)
  | [], ys, _, _ => by simp [nil_remove_fst_set]
  | a :: as, [], _, _ => by simp [remove_fst_set_nil]
  | a :: as, b :: bs, ha, hb => by
    simp only [List.pairwise_cons] at ha hb
    by_cases h₁ : strLt a b
    · rw [remove_fst_set, if_pos h₁]
      simp only [List.mem_cons,
        mem_remove_fst_set x as (b :: bs) ha.2 (List.pairwise_cons.mpr hb)]
      constructor
      · rintro (rfl | ⟨hxas, hxb⟩)
        · refine ⟨Or.inl rfl, ?_⟩
          rintro (rfl | hxbs)
          · exact strLt_irrefl x h₁
          · exact strLt_asymm (hb.1 x hxbs) h₁
        · refine ⟨Or.inr hxas, ?_⟩
          rintro (rfl | hxbs)
          · exact hxb (Or.inl rfl)
          · exact hxb (Or.inr hxbs)
      · rintro ⟨rfl | hxas, hxb⟩
        · exact Or.inl rfl
        · exact Or.inr ⟨hxas, fun h => hxb h⟩
    · by_cases h₂ : strLt b a
      · rw [remove_fst_set, if_neg h₁, if_pos h₂]
        rw [mem_remove_fst_set x (a :: as) bs (List.pairwise_cons.mpr ha) hb.2]
        constructor
        · rintro ⟨hxa, hxbs⟩
          refine ⟨hxa, ?_⟩
          intro hxbb
          rcases List.mem_cons.mp hxbb with rfl | hx
          · rcases List.mem_cons.mp hxa with rfl | hx'
            · exact strLt_irrefl x h₂
            · exact strLt_asymm h₂ (ha.1 x hx')
          · exact hxbs hx
        · rintro ⟨hxa, hxb⟩
          exact ⟨hxa, fun hx => hxb (List.mem_cons.mpr (Or.inr hx))⟩
      · have hab : a = b := strLt_of_ne_of_not_gt h₁ h₂
        subst hab
        rw [remove_fst_set, if_neg h₁, if_neg h₂]
        rw [mem_remove_fst_set x as bs ha.2 hb.2]
        constructor
        · rintro ⟨hxas, hxbs⟩
          refine ⟨List.mem_cons.mpr (Or.inr hxas), ?_⟩
          intro hxbb
          rcases List.mem_cons.mp hxbb with rfl | hx
          · exact strLt_irrefl x (ha.1 x hxas)
          · exact hxbs hx
        · rintro ⟨hxa, hxb⟩
          rcases List.mem_cons.mp hxa with rfl | hxas
          · exact absurd (List.mem_cons.mpr (Or.inl rfl)) hxb
          · exact ⟨hxas, fun hx => hxb (List.mem_cons.mpr (Or.inr hx))⟩
termination_by a b => a.length + b.length

theorem remove_fst_set_sublist :
    ∀ a b : List Str, (remove_fst_set a b).Sublist a
  | [], ys => by simp [nil_remove_fst_set]
  | a :: as, [] => by simp [remove_fst_set_nil]
  | a :: as, b :: bs => by
    by_cases h₁ : strLt a b
    · rw [remove_fst_set, if_pos h₁]
      exact (remove_fst_set_sublist as (b :: bs)).cons₂ a
    · by_cases h₂ : strLt b a
      · rw [remove_fst_set, if_neg h₁, if_pos h₂]
        exact remove_fst_set_sublist (a :: as) bs
      · rw [remove_fst_set, if_neg h₁, if_neg h₂]
        exact (remove_fst_set_sublist as bs).cons a
termination_by a b => a.length + b.length

theorem sorted_remove_fst_set (a b : List Str) (ha : SortedStrs a) :
    SortedStrs (remove_fst_set a b) :=
  List.Pairwise.sublist (remove_fst_set_sublist a b) ha

/-! ### The Path Ledger (the sled `paths` tree) -/

/-- The `paths` tree: a byte-ordered map from path string to the timestamp of
its last visit, embedded as a key-sorted association list. -/

theorem mem_keys_ledgerInsert (x p : Str) (t : Nat) :
    ∀ l : Ledger, x ∈ ledgerKeys (ledgerInsert l p t).2 ↔ x ∈ ledgerKeys l ∨ x = p
  | [] => by simp [ledgerInsert, ledgerKeys]
  | (k, v) :: rest => by
    by_cases h₁ : strLt p k
    · rw [ledgerInsert, if_pos h₁]
      simp only [ledgerKeys, List.map_cons, List.mem_cons]
      tauto
    · by_cases h₂ : strLt k p
      · rw [ledgerInsert, if_neg h₁, if_pos h₂]
        simp only [ledgerKeys, List.map_cons, List.mem_cons]
        have ih := mem_keys_ledgerInsert x p t rest
        simp only [ledgerKeys] at ih
        rw [ih]
        tauto
      · have hkp : p = k := strLt_of_ne_of_not_gt h₁ h₂
        rw [ledgerInsert, if_neg h₁, if_neg h₂]
        simp only [ledgerKeys, List.map_cons, List.mem_cons]
        subst hkp
        tauto

theorem ledgerInsert_some_keys (p : Str) (t : Nat) :
    ∀ l : Ledger, ∀ v, (ledgerInsert l p t).1 = some v →
      ledgerKeys (ledgerInsert l p t).2 = ledgerKeys l
  | [], v => by simp [ledgerInsert]
  | (k, w) :: rest, v => by
    by_cases h₁ : strLt p k
    · rw [ledgerInsert, if_pos h₁]
      intro h
      cases h
    · by_cases h₂ : strLt k p
      · rw [ledgerInsert, if_neg h₁, if_pos h₂]
        intro h
        simp only [ledgerKeys, List.map_cons, List.cons.injEq, true_and]
        exact ledgerInsert_some_keys p t rest v h
      · have hkp : p = k := strLt_of_ne_of_not_gt h₁ h₂
        rw [ledgerInsert, if_neg h₁, if_neg h₂]
        intro _
        subst hkp
        simp [ledgerKeys]

theorem ledgerInsert_mem_some (p : Str) (t : Nat) :
    ∀ l : Ledger, LedgerSorted l → p ∈ ledgerKeys l →
      ∃ v, (ledgerInsert l p t).1 = some v
  | [], _, hp => by simp [ledgerKeys] at hp
  | (k, w) :: rest, hs, hp => by
    unfold LedgerSorted ledgerKeys at hs
    simp only [List.map_cons, List.pairwise_cons] at hs
    by_cases h₁ : strLt p k
    · exfalso
      rcases List.mem_cons.mp hp with rfl | hp'
      · exact strLt_irrefl p h₁
      · exact strLt_asymm (hs.1 p hp') h₁
    · by_cases h₂ : strLt k p
      · rw [ledgerInsert, if_neg h₁, if_pos h₂]
        rcases List.mem_cons.mp hp with rfl | hp'
        · exact absurd h₂ (strLt_irrefl p)
        · exact ledgerInsert_mem_some p t rest hs.2 hp'
      · rw [ledgerInsert, if_neg h₁, if_neg h₂]
        exact ⟨w, rfl⟩

theorem ledgerGet_insert_self (p : Str) (t : Nat) :
    ∀ l : Ledger, ledgerGet (ledgerInsert l p t).2 p = some t
  | [] => by simp [ledgerInsert, ledgerGet]
  | (k, v) :: rest => by
    by_cases h₁ : strLt p k
    · rw [ledgerInsert, if_pos h₁]
      simp [ledgerGet]
    · by_cases h₂ : strLt k p
      · rw [ledgerInsert, if_neg h₁, if_pos h₂]
        have hne : ¬ p = k := fun h => strLt_irrefl p (h ▸ h₂)
        rw [ledgerGet, if_neg hne]
        exact ledgerGet_insert_self p t rest
      · rw [ledgerInsert, if_neg h₁, if_neg h₂]
        simp [ledgerGet]

theorem sorted_ledgerInsert (p : Str) (t : Nat) :
    ∀ l : Ledger, LedgerSorted l → LedgerSorted (ledgerInsert l p t).2
  | [], _ => by simp [ledgerInsert, ledgerKeys, LedgerSorted]
  | (k, v) :: rest, hs => by
    unfold LedgerSorted ledgerKeys at hs
    simp only [List.map_cons, List.pairwise_cons] at hs
    by_cases h₁ : strLt p k
    · rw [ledgerInsert, if_pos h₁]
      unfold LedgerSorted ledgerKeys
      simp only [List.map_cons, List.pairwise_cons]
      refine ⟨?_, hs⟩
      intro z hz
      rcases List.mem_cons.mp hz with rfl | hz'
      · exact h₁
      · exact strLt_trans h₁ (hs.1 z hz')
    · by_cases h₂ : strLt k p
      · rw [ledgerInsert, if_neg h₁, if_pos h₂]
        unfold LedgerSorted ledgerKeys
        simp only [List.map_cons, List.pairwise_cons]
        refine ⟨?_, sorted_ledgerInsert p t rest hs.2⟩
        intro z hz
        have hz' := (mem_keys_ledgerInsert z p t rest).mp hz
        rcases hz' with hz' | rfl
        · exact hs.1 z hz'
        · exact h₂
      · have hkp : p = k := strLt_of_ne_of_not_gt h₁ h₂
        rw [ledgerInsert, if_neg h₁, if_neg h₂]
        subst hkp
        unfold LedgerSorted ledgerKeys
        simp only [List.map_cons, List.pairwise_cons]
        exact hs

theorem ledgerRemove_not_mem (p : Str) :
    ∀ l : Ledger, p ∉ ledgerKeys l → ledgerRemove l p = (none, l)
  | [], _ => rfl
  | (k, v) :: rest, hp => by
    simp only [ledgerKeys, List.map_cons, List.mem_cons, not_or] at hp
    rw [ledgerRemove, if_neg hp.1]
    simp only [ledgerRemove_not_mem p rest hp.2]

theorem ledgerRemove_none (p : Str) :
    ∀ l : Ledger, (ledgerRemove l p).1 = none → (ledgerRemove l p).2 = l
  | [], _ => rfl
  | (k, v) :: rest, h => by
    by_cases h₁ : p = k
    · rw [ledgerRemove, if_pos h₁] at h
      cases h
    · rw [ledgerRemove, if_neg h₁] at h ⊢
      have h' : (ledgerRemove rest p).1 = none := h
      show (k, v) :: (ledgerRemove rest p).2 = (k, v) :: rest
      rw [ledgerRemove_none p rest h']

theorem mem_keys_ledgerRemove (x p : Str) :
    ∀ l : Ledger, LedgerSorted l →
      (x ∈ ledgerKeys (ledgerRemove l p).2 ↔ x ∈ ledgerKeys l ∧ x ≠ p)
  | [], _ => by simp [ledgerRemove, ledgerKeys]
  | (k, v) :: rest, hs => by
    unfold LedgerSorted ledgerKeys at hs
    simp only [List.map_cons, List.pairwise_cons] at hs
    by_cases h₁ : p = k
    · subst h₁
      rw [ledgerRemove, if_pos rfl]
      simp only [ledgerKeys, List.map_cons, List.mem_cons]
      constructor
      · intro hx
        refine ⟨Or.inr hx, ?_⟩
        rintro rfl
        exact strLt_irrefl x (hs.1 x hx)
      · rintro ⟨rfl | hx, hne⟩
        · exact absurd rfl hne
        · exact hx
    · rw [ledgerRemove, if_neg h₁]
      simp only [ledgerKeys, List.map_cons, List.mem_cons]
      have ih := mem_keys_ledgerRemove x p rest hs.2
      simp only [ledgerKeys] at ih
      rw [ih]
      constructor
      · rintro (rfl | ⟨hx, hne⟩)
        · exact ⟨Or.inl rfl, fun h => h₁ h.symm⟩
        · exact ⟨Or.inr hx, hne⟩
      · rintro ⟨rfl | hx, hne⟩
        · exact Or.inl rfl
        · exact Or.inr ⟨hx, hne⟩

theorem ledgerRemove_keys_sublist (p : Str) :
    ∀ l : Ledger, (ledgerKeys (ledgerRemove l p).2).Sublist (ledgerKeys l)
  | [] => by simp [ledgerRemove, ledgerKeys]
  | (k, v) :: rest => by
    by_cases h₁ : p = k
    · rw [ledgerRemove, if_pos h₁]
      exact (List.sublist_cons_self k (ledgerKeys rest))
    · rw [ledgerRemove, if_neg h₁]
      simp only [ledgerKeys, List.map_cons]
      exact (ledgerRemove_keys_sublist p rest).cons₂ k

theorem sorted_ledgerRemove (p : Str) (l : Ledger) (hs : LedgerSorted l) :
    LedgerSorted (ledgerRemove l p).2 :=
  List.Pairwise.sublist (ledgerRemove_keys_sublist p l) hs

/-! ### Engine state and errors -/

/-- The two error enums surfaced through the `failure::Error` channel:
`IndexError` variants raised by this module, plus the build error propagated
from `regex_automata::dense::Builder::build` inside `Index::search`. -/

theorem stateWF_empty : StateWF emptyState := by
  refine ⟨List.Pairwise.nil, List.Pairwise.nil, ?_⟩
  intro x
  simp [emptyState, indexList, ledgerKeys]

theorem stateWF_add (st : IndexState) (d a : Bool) (p : Str) (t : Nat) (st' : IndexState)
    (hwf : StateWF st) (h : Index.add st d a p t = (.ok (), st')) : StateWF st' := by
  obtain ⟨hl, hi, hm⟩ := hwf
  have hm' : ∀ x, x ∈ st.main.getD [] ↔ x ∈ ledgerKeys st.paths := hm
  cases d with
  | false => exact absurd (congrArg Prod.fst h) (by simp [Index.add])
  | true =>
    cases a with
    | false => exact absurd (congrArg Prod.fst h) (by simp [Index.add])
    | true =>
      rw [Index.add] at h
      rcases hr : (ledgerInsert st.paths p t).1 with _ | v
      · rw [hr] at h
        injection h with _ h
        subst h
        refine ⟨sorted_ledgerInsert p t st.paths hl, ?_, ?_⟩
        · exact sorted_merge_fst_sets (st.main.getD []) [p] hi (List.pairwise_singleton _ _)
        · intro x
          show x ∈ merge_fst_sets (st.main.getD []) [p] ↔ _
          rw [mem_merge_fst_sets x (st.main.getD []) [p]]
          rw [mem_keys_ledgerInsert x p t st.paths]
          simp only [List.mem_singleton]
          rw [hm' x]
      · rw [hr] at h
        injection h with _ h
        subst h
        refine ⟨sorted_ledgerInsert p t st.paths hl, hi, ?_⟩
        intro x
        rw [ledgerInsert_some_keys p t st.paths v hr]
        exact hm x

theorem stateWF_delete (st : IndexState) (p : Str) (st' : IndexState)
    (hwf : StateWF st) (h : Index.delete st p = (.ok (), st')) : StateWF st' := by
  obtain ⟨hl, hi, hm⟩ := hwf
  have hm' : ∀ x, x ∈ st.main.getD [] ↔ x ∈ ledgerKeys st.paths := hm
  rw [Index.delete] at h
  rcases hr : (ledgerRemove st.paths p).1 with _ | v
  · rw [hr] at h
    injection h with _ h
    subst h
    show StateWF { paths := (ledgerRemove st.paths p).2, main := st.main }
    rw [ledgerRemove_none p st.paths hr]
    exact ⟨hl, hi, hm⟩
  · rw [hr] at h
    injection h with _ h
    subst h
    refine ⟨sorted_ledgerRemove p st.paths hl, ?_, ?_⟩
    · exact sorted_remove_fst_set (st.main.getD []) [p] hi
    · intro x
      show x ∈ remove_fst_set (st.main.getD []) [p] ↔ _
      rw [mem_remove_fst_set x (st.main.getD []) [p] hi (List.pairwise_singleton _ _)]
      rw [mem_keys_ledgerRemove x p st.paths hl]
      simp only [List.mem_singleton]
      rw [hm' x]

theorem stateWF_runOps :
    ∀ (ops : List Op) (st s : IndexState), StateWF st → runOps st ops = some s → StateWF s
  | [], st, s, hwf, h => by
    rw [runOps] at h
    injection h with h
    exact h ▸ hwf
  | op :: ops, st, s, hwf, h => by
    rw [runOps] at h
    split at h
    · rename_i u st' heq
      rcases u
      refine stateWF_runOps ops st' s ?_ h
      rcases op with ⟨d, a, p, t⟩ | p
      · exact stateWF_add st d a p t st' hwf heq
      · exact stateWF_delete st p st' hwf heq
    · cases h

/-! ### Query-layer lemmas -/

theorem subseq_iff_sublist : ∀ t s : Str, (subseq t s = true ↔ t.Sublist s)
  | t, [] => by
    cases t with
    | nil => simp [subseq]
    | cons a as => simp [subseq]
  | [], c :: cs => by simp [subseq]
  | t :: ts, c :: cs => by
    by_cases h : t = c
    · subst h
      rw [subseq, if_pos rfl, subseq_iff_sublist ts cs]
      exact (List.cons_sublist_cons).symm
    · rw [subseq, if_neg h, subseq_iff_sublist (t :: ts) cs]
      constructor
      · exact fun hs => hs.cons c
      · intro hs
        rcases List.cons_sublist_cons'.mp hs with hs' | ⟨rfl, _⟩
        · exact hs'
        · exact absurd rfl h

theorem parseAtoms_meta_free :
    ∀ t : Str, (∀ c ∈ t, isMeta c = false) →
      parseAtoms t = some (t.map fun c => QAtom.lit c.toLower)
  | [], _ => rfl
  | c :: cs, h => by
    have hc : isMeta c = false := h c (List.mem_cons_self c cs)
    have hdot : ¬ c = '.' := by
      rintro rfl
      simp [isMeta] at hc
    rw [parseAtoms, if_neg hdot, if_neg (by simp [hc] : ¬ isMeta c = true)]
    rw [parseAtoms_meta_free cs fun d hd => h d (List.mem_cons_of_mem c hd)]
    simp

theorem atomsPref_lit : ∀ t s : Str,
    atomsPref (t.map fun c => QAtom.lit c.toLower) s = prefCI t s
  | [], s => by cases s <;> rfl
  | a :: as, [] => rfl
  | a :: as, b :: bs => by
    simp only [List.map_cons, atomsPref, prefCI, atomMatch, atomsPref_lit as bs]

theorem atomsSub_lit (t : Str) : ∀ s : Str,
    atomsSub (t.map fun c => QAtom.lit c.toLower) s = containsCI t s
  | [] => by simp only [atomsSub, containsCI, atomsPref_lit]
  | c :: cs => by
    simp only [atomsSub, containsCI, atomsPref_lit, atomsSub_lit t cs]

/-! ### Score-order lemmas -/

theorem optLt_trichotomy (x y : Option Nat) : optLt x y = true ∨ x = y ∨ optLt y x = true := by
  cases x <;> cases y <;> simp [optLt] <;> omega

theorem optLt_trans {x y z : Option Nat} (h1 : optLt x y = true) (h2 : optLt y z = true) :
    optLt x z = true := by
  cases x <;> cases y <;> cases z <;> simp_all [optLt] <;> omega

theorem optLe_refl (x : Option Nat) : optLe x x = true := by
  simp [optLe]

theorem optLe_of_optLt {x y : Option Nat} (h : optLt x y = true) : optLe x y = true := by
  simp [optLe, h]

theorem scoreLe_refl (a : Score) : scoreLe a a = true := by
  simp [scoreLe]

theorem scoreLe_iff (a b : Score) : scoreLe a b = true ↔
    (a.score < b.score ∨ (a.score = b.score ∧ (optLt a.timestamp b.timestamp = true ∨
      (a.timestamp = b.timestamp ∧ (strLt a.path b.path ∨ a.path = b.path))))) := by
  cases a with
  | mk sa ta pa =>
    cases b with
    | mk sb tb pb =>
      simp only [scoreLe, scoreLt, Score.mk.injEq, Bool.or_eq_true, Bool.and_eq_true,
        decide_eq_true_eq]
      constructor
      · rintro ((h | ⟨h1, h2 | ⟨h3, h4⟩⟩) | ⟨h1, h2, h3⟩)
        · exact Or.inl h
        · exact Or.inr ⟨h1, Or.inl h2⟩
        · exact Or.inr ⟨h1, Or.inr ⟨h3, Or.inl h4⟩⟩
        · exact Or.inr ⟨h1, Or.inr ⟨h2, Or.inr h3⟩⟩
      · rintro (h | ⟨h1, h2 | ⟨h3, h4 | h4⟩⟩)
        · exact Or.inl (Or.inl h)
        · exact Or.inl (Or.inr ⟨h1, Or.inl h2⟩)
        · exact Or.inl (Or.inr ⟨h1, Or.inr ⟨h3, h4⟩⟩)
        · exact Or.inr ⟨h1, h3, h4⟩

theorem scoreLe_trans {a b c : Score} (h1 : scoreLe a b = true) (h2 : scoreLe b c = true) :
    scoreLe a c = true := by
  rw [scoreLe_iff] at h1 h2 ⊢
  rcases h1 with h1 | ⟨e1, h1⟩
  · rcases h2 with h2 | ⟨e2, h2⟩
    · exact Or.inl (lt_trans h1 h2)
    · exact Or.inl (e2 ▸ h1)
  · rcases h2 with h2 | ⟨e2, h2⟩
    · exact Or.inl (e1 ▸ h2)
    · refine Or.inr ⟨e1.trans e2, ?_⟩
      rcases h1 with h1 | ⟨f1, h1⟩
      · rcases h2 with h2 | ⟨f2, h2⟩
        · exact Or.inl (optLt_trans h1 h2)
        · exact Or.inl (f2 ▸ h1)
      · rcases h2 with h2 | ⟨f2, h2⟩
        · exact Or.inl (f1 ▸ h2)
        · refine Or.inr ⟨f1.trans f2, ?_⟩
          rcases h1 with h1 | h1
          · rcases h2 with h2 | h2
            · exact Or.inl (strLt_trans h1 h2)
            · exact Or.inl (h2 ▸ h1)
          · rcases h2 with h2 | h2
            · exact Or.inl (h1 ▸ h2)
            · exact Or.inr (h1.trans h2)

theorem scoreLe_total (a b : Score) : scoreLe a b = true ∨ scoreLe b a = true := by
  rcases lt_trichotomy a.score b.score with h | h | h
  · exact Or.inl ((scoreLe_iff a b).mpr (Or.inl h))
  · rcases optLt_trichotomy a.timestamp b.timestamp with h2 | h2 | h2
    · exact Or.inl ((scoreLe_iff a b).mpr (Or.inr ⟨h, Or.inl h2⟩))
    · rcases strLt_trichotomy a.path b.path with h3 | h3 | h3
      · exact Or.inl ((scoreLe_iff a b).mpr (Or.inr ⟨h, Or.inr ⟨h2, Or.inl h3⟩⟩))
      · exact Or.inl ((scoreLe_iff a b).mpr (Or.inr ⟨h, Or.inr ⟨h2, Or.inr h3⟩⟩))
      · exact Or.inr ((scoreLe_iff b a).mpr (Or.inr ⟨h.symm, Or.inr ⟨h2.symm, Or.inl h3⟩⟩))
    · exact Or.inr ((scoreLe_iff b a).mpr (Or.inr ⟨h.symm, Or.inl h2⟩))
  · exact Or.inr ((scoreLe_iff b a).mpr (Or.inl h))

/-! ### Sorting lemmas -/

theorem mem_insertScore (x a : Score) : ∀ l, x ∈ insertScore a l ↔ x = a ∨ x ∈ l
  | [] => by simp [insertScore]
  | b :: bs => by
    by_cases h : scoreLe a b = true
    · rw [insertScore, if_pos h]
      simp
    · rw [insertScore, if_neg h]
      simp only [List.mem_cons, mem_insertScore x a bs]
      tauto

theorem perm_insertScore (a : Score) : ∀ l, (insertScore a l).Perm (a :: l)
  | [] => List.Perm.refl _
  | b :: bs => by
    by_cases h : scoreLe a b = true
    · rw [insertScore, if_pos h]
    · rw [insertScore, if_neg h]
      exact ((perm_insertScore a bs).cons b).trans (List.Perm.swap a b bs)

theorem sorted_insertScore (a : Score) : ∀ l, SortedScores l → SortedScores (insertScore a l)
  | [], _ => by
    rw [insertScore]
    exact List.pairwise_singleton _ _
  | b :: bs, h => by
    simp only [List.pairwise_cons] at h
    by_cases hab : scoreLe a b = true
    · rw [insertScore, if_pos hab]
      refine List.pairwise_cons.mpr ⟨?_, List.pairwise_cons.mpr h⟩
      intro z hz
      rcases List.mem_cons.mp hz with rfl | hz'
      · exact hab
      · exact scoreLe_trans hab (h.1 z hz')
    · rw [insertScore, if_neg hab]
      refine List.pairwise_cons.mpr ⟨?_, sorted_insertScore a bs h.2⟩
      intro z hz
      rcases (mem_insertScore z a bs).mp hz with hza | hz'
      · rw [hza]
        exact (scoreLe_total a b).resolve_left hab
      · exact h.1 z hz'

theorem perm_sortScores : ∀ l, (sortScores l).Perm l
  | [] => List.Perm.refl _
  | a :: as => by
    rw [sortScores]
    exact (perm_insertScore a (sortScores as)).trans ((perm_sortScores as).cons a)

theorem mem_sortScores (x : Score) (l : List Score) : x ∈ sortScores l ↔ x ∈ l :=
  (perm_sortScores l).mem_iff

theorem sorted_sortScores : ∀ l, SortedScores (sortScores l)
  | [] => List.Pairwise.nil
  | a :: as => by
    rw [sortScores]
    exact sorted_insertScore a (sortScores as) (sorted_sortScores as)

theorem sortScores_eq_nil_iff (l : List Score) : sortScores l = [] ↔ l = [] := by
  constructor
  · intro h
    exact List.Perm.eq_nil (h ▸ perm_sortScores l).symm
  · rintro rfl
    rfl

theorem getLast?_mem_list : ∀ (l : List Score) (m : Score), l.getLast? = some m → m ∈ l
  | [], m, h => by cases h
  | [a], m, h => by
    rw [List.getLast?_singleton] at h
    injection h with h
    exact h ▸ List.mem_singleton_self a
  | a :: b :: bs, m, h => by
    rw [List.getLast?_cons_cons] at h
    exact List.mem_cons_of_mem a (getLast?_mem_list (b :: bs) m h)

theorem getLast?_max : ∀ (l : List Score) (m : Score), SortedScores l →
    l.getLast? = some m → ∀ x ∈ l, scoreLe x m = true
  | [], m, _, h => by cases h
  | [a], m, _, h => by
    rw [List.getLast?_singleton] at h
    injection h with h
    subst h
    intro x hx
    rw [List.mem_singleton] at hx
    rw [hx]
    exact scoreLe_refl _
  | a :: b :: bs, m, hs, h => by
    rw [List.getLast?_cons_cons] at h
    simp only [List.pairwise_cons] at hs
    intro x hx
    rcases List.mem_cons.mp hx with rfl | hx'
    · exact hs.1 m (getLast?_mem_list (b :: bs) m h)
    · exact getLast?_max (b :: bs) m (List.pairwise_cons.mpr hs.2) h x hx'

theorem optLt_irrefl (x : Option Nat) : optLt x x = false := by
  cases x <;> simp [optLt]

/-- Full behavioural characterisation of `Index::get_best_score` on a
non-empty input: it returns a record sharing path and score with some input
candidate; that score is maximal; every fetched timestamp belongs to a
maximal-score candidate; nothing is fetched when the maximum is unique; the
winner's Ledger timestamp is maximal among the score-tied candidates; and a
full tie is resolved in favour of the lexicographically largest path. -/
theorem get_best_score_spec (st : IndexState) (results : List Score) (hne : results ≠ []) :
    ∃ b, (Index.get_best_score st results).1 = some b ∧
      (∃ x, x ∈ results ∧ b.path = x.path ∧ b.score = x.score) ∧
      (∀ x ∈ results, x.score ≤ b.score) ∧
      (∀ q ∈ (Index.get_best_score st results).2,
        ∃ x, x ∈ results ∧ q = x.path ∧ x.score = b.score) ∧
      ((results.countP fun x => decide (x.score = b.score)) ≤ 1 →
        (Index.get_best_score st results).2 = []) ∧
      (∀ x ∈ results, x.score = b.score →
        optLe (Index.get_timestamp st x.path) (Index.get_timestamp st b.path) = true) ∧
      (∀ x ∈ results, x.score = b.score →
        Index.get_timestamp st x.path = Index.get_timestamp st b.path →
        (strLt x.path b.path ∨ x.path = b.path)) := by
  cases results with
  | nil => exact absurd rfl hne
  | cons r rs =>
    have hsne : sortScores (r :: rs) ≠ [] := by
      rw [ne_eq, sortScores_eq_nil_iff]
      exact List.cons_ne_nil r rs
    obtain ⟨m, hm⟩ : ∃ m, (sortScores (r :: rs)).getLast? = some m :=
      ⟨(sortScores (r :: rs)).getLast hsne, List.getLast?_eq_getLast_of_ne_nil hsne⟩
    have hmmem : m ∈ sortScores (r :: rs) := getLast?_mem_list _ m hm
    have hmaxscore : ∀ x ∈ r :: rs, x.score ≤ m.score := by
      intro x hx
      have hle := getLast?_max _ m (sorted_sortScores _) hm x ((mem_sortScores x _).mpr hx)
      rcases (scoreLe_iff x m).mp hle with h | ⟨h, _⟩
      · exact le_of_lt h
      · exact le_of_eq h
    have hgb : Index.get_best_score st (r :: rs) =
        (if 1 < ((sortScores (r :: rs)).filter fun x => decide (x.score = m.score)).length then
          ((sortScores (((sortScores (r :: rs)).filter fun x => decide (x.score = m.score)).map
              fun x => { x with timestamp := Index.get_timestamp st x.path })).getLast?,
            ((sortScores (r :: rs)).filter fun x => decide (x.score = m.score)).map Score.path)
        else (((sortScores (r :: rs)).filter fun x => decide (x.score = m.score)).getLast?,
          [])) := by
      simp only [Index.get_best_score, hm, Option.map_some', Option.getD_some]
    set tied := (sortScores (r :: rs)).filter fun x => decide (x.score = m.score) with htieddef
    have hmtied : m ∈ tied := by
      rw [htieddef]
      exact List.mem_filter.mpr ⟨hmmem, by simp⟩
    have htne : tied ≠ [] := fun h => by
      rw [h] at hmtied
      exact (List.not_mem_nil m) hmtied
    have htiedmem : ∀ y ∈ tied, y ∈ (r :: rs) ∧ y.score = m.score := by
      intro y hy
      rw [htieddef] at hy
      have h := List.mem_filter.mp hy
      exact ⟨(mem_sortScores _ _).mp h.1, by simpa using h.2⟩
    have htiedmem2 : ∀ y, y ∈ (r :: rs) → y.score = m.score → y ∈ tied := by
      intro y hy hs
      rw [htieddef]
      exact List.mem_filter.mpr ⟨(mem_sortScores _ _).mpr hy, by simpa using hs⟩
    have hcount : ((r :: rs).countP fun x => decide (x.score = m.score)) = tied.length := by
      have hp := (perm_sortScores (r :: rs)).countP_eq fun x => decide (x.score = m.score)
      rw [htieddef, ← List.countP_eq_length_filter]
      exact hp.symm
    by_cases hlen : 1 < tied.length
    · rw [hgb, if_pos hlen]
      have hfne :
          (tied.map fun x => { x with timestamp := Index.get_timestamp st x.path }) ≠ [] := by
        simpa using htne
      have hsfne :
          sortScores (tied.map fun x =>
            { x with timestamp := Index.get_timestamp st x.path }) ≠ [] := by
        rw [ne_eq, sortScores_eq_nil_iff]
        exact hfne
      obtain ⟨b, hb⟩ :
          ∃ b, (sortScores (tied.map fun x =>
            { x with timestamp := Index.get_timestamp st x.path })).getLast? = some b :=
        ⟨_, List.getLast?_eq_getLast_of_ne_nil hsfne⟩
      obtain ⟨y, hyt, hby⟩ :=
        List.mem_map.mp ((mem_sortScores _ _).mp (getLast?_mem_list _ b hb))
      have hysc : y.score = m.score := (htiedmem y hyt).2
      subst hby
      refine ⟨_, hb, ⟨y, (htiedmem y hyt).1, rfl, rfl⟩, ?_, ?_, ?_, ?_, ?_⟩
      · intro x hx
        have : x.score ≤ m.score := hmaxscore x hx
        show x.score ≤ y.score
        rw [hysc]
        exact this
      · intro q hq
        obtain ⟨z, hzt, hzq⟩ := List.mem_map.mp hq
        refine ⟨z, (htiedmem z hzt).1, hzq.symm, ?_⟩
        show z.score = y.score
        rw [(htiedmem z hzt).2, hysc]
      · intro hc
        exfalso
        have hpred : (fun x : Score => decide (x.score =
            ({ y with timestamp := Index.get_timestamp st y.path } : Score).score)) =
            fun x : Score => decide (x.score = m.score) := by
          funext x
          show decide (x.score = y.score) = decide (x.score = m.score)
          rw [hysc]
        rw [hpred, hcount] at hc
        omega
      · intro x hx hxs
        have hxm : x.score = m.score := by
          rw [← hysc]
          exact hxs
        have hxt : ({ x with timestamp := Index.get_timestamp st x.path } : Score) ∈
            (tied.map fun x => { x with timestamp := Index.get_timestamp st x.path }) :=
          List.mem_map.mpr ⟨x, htiedmem2 x hx hxm, rfl⟩
        have hle := getLast?_max _ _ (sorted_sortScores _) hb _ ((mem_sortScores _ _).mpr hxt)
        rcases (scoreLe_iff _ _).mp hle with h | ⟨_, h2⟩
        · exfalso
          have : x.score < y.score := h
          rw [hxs] at this
          exact lt_irrefl _ this
        · rcases h2 with h2 | ⟨h2, _⟩
          · exact optLe_of_optLt h2
          · have : Index.get_timestamp st x.path = Index.get_timestamp st y.path := h2
            simp [optLe, this]
      · intro x hx hxs hts
        have hxm : x.score = m.score := by
          rw [← hysc]
          exact hxs
        have hxt : ({ x with timestamp := Index.get_timestamp st x.path } : Score) ∈
            (tied.map fun x => { x with timestamp := Index.get_timestamp st x.path }) :=
          List.mem_map.mpr ⟨x, htiedmem2 x hx hxm, rfl⟩
        have hle := getLast?_max _ _ (sorted_sortScores _) hb _ ((mem_sortScores _ _).mpr hxt)
        rcases (scoreLe_iff _ _).mp hle with h | ⟨_, h2⟩
        · exfalso
          have : x.score < y.score := h
          rw [hxs] at this
          exact lt_irrefl _ this
        · rcases h2 with h2 | ⟨_, h3⟩
          · exfalso
            have h2' : optLt (Index.get_timestamp st x.path)
                (Index.get_timestamp st y.path) = true := h2
            rw [hts, optLt_irrefl] at h2'
            cases h2'
          · rcases h3 with h3 | h3
            · exact Or.inl h3
            · exact Or.inr h3
    · rw [hgb, if_neg hlen]
      have hpos : 0 < tied.length := List.length_pos.mpr htne
      have hone : tied.length = 1 := by omega
      obtain ⟨b, htb⟩ := List.length_eq_one.mp hone
      have hbm : b = m := by
        rw [htb] at hmtied
        exact (List.mem_singleton.mp hmtied).symm
      have hbin : b ∈ tied := by
        rw [htb]
        exact List.mem_singleton_self b
      have honly : ∀ x, x ∈ (r :: rs) → x.score = b.score → x = b := by
        intro x hx hxs
        have : x ∈ tied := htiedmem2 x hx (by rw [hxs, hbm])
        rw [htb] at this
        exact List.mem_singleton.mp this
      refine ⟨b, ?_, ⟨b, (htiedmem b hbin).1, rfl, rfl⟩, ?_, ?_, ?_, ?_, ?_⟩
      · show tied.getLast? = some b
        rw [htb]
        rfl
      · intro x hx
        rw [show b.score = m.score from congrArg Score.score hbm]
        exact hmaxscore x hx
      · intro q hq
        exact absurd hq (List.not_mem_nil q)
      · intro _
        rfl
      · intro x hx hxs
        rw [honly x hx hxs]
        exact optLe_refl _
      · intro x hx hxs _
        exact Or.inr (congrArg Score.path (honly x hx hxs))

/-! ### Claim theorems -/

/-- C9: for all finite sorted deduplicated string sets, `merge_fst_sets`
returns exactly the sorted deduplicated union of its two inputs and
`remove_fst_set` returns exactly the first set minus the second (covering the
listed concrete laws: merge of two empties is empty, removing nothing leaves
the set, removing from the empty set gives the empty set, and the membership
characterisations force the remaining examples). -/
theorem merge_remove_laws (a b : List Str) (ha : SortedStrs a) (hb : SortedStrs b) :
    merge_fst_sets [] [] = ([] : List Str) ∧
      SortedStrs (merge_fst_sets a b) ∧
      (∀ x, x ∈ merge_fst_sets a b ↔ x ∈ a ∨ x ∈ b) ∧
      remove_fst_set a [] = a ∧
      remove_fst_set [] b = [] ∧
      SortedStrs (remove_fst_set a b) ∧
      (∀ x, x ∈ remove_fst_set a b ↔ x ∈ a ∧ x ∉ b) :=
  ⟨by rw [merge_fst_sets], sorted_merge_fst_sets a b ha hb, fun x => mem_merge_fst_sets x a b,
    remove_fst_set_nil a, nil_remove_fst_set b, sorted_remove_fst_set a b ha,
    fun x => mem_remove_fst_set x a b ha hb⟩

theorem merge_remove_laws_witness :
    SortedStrs [['a'], ['b']] ∧ SortedStrs [['a']] ∧
      (merge_fst_sets [] [] = ([] : List Str) ∧
        SortedStrs (merge_fst_sets [['a'], ['b']] [['a']]) ∧
        (∀ x, x ∈ merge_fst_sets [['a'], ['b']] [['a']] ↔ x ∈ [['a'], ['b']] ∨ x ∈ [['a']]) ∧
        remove_fst_set [['a'], ['b']] [] = [['a'], ['b']] ∧
        remove_fst_set [] [['a']] = [] ∧
        SortedStrs (remove_fst_set [['a'], ['b']] [['a']]) ∧
        (∀ x, x ∈ remove_fst_set [['a'], ['b']] [['a']] ↔
          x ∈ [['a'], ['b']] ∧ x ∉ [['a']])) :=
  ⟨by decide, by decide, merge_remove_laws [['a'], ['b']] [['a']] (by decide) (by decide)⟩

/-- C1: starting from the empty store, after any sequence of successful
`add`/`delete` calls the set of strings in the Membership Index (the fst set
under the index key) equals exactly the set of keys of the Path Ledger.
Every prefix of a successful sequence is itself a successful sequence, so
this gives the invariant after each call. -/
theorem membership_index_equals_ledger_keys (ops : List Op) (s : IndexState)
    (h : runOps emptyState ops = some s) :
    ∀ x, x ∈ indexList s ↔ x ∈ ledgerKeys s.paths :=
  (stateWF_runOps ops emptyState s stateWF_empty h).2.2

theorem membership_index_equals_ledger_keys_witness :
    runOps emptyState [Op.add true true ['a'] 0] =
        some { paths := [(['a'], 0)], main := some [['a']] } ∧
      ((['a'] : Str) ∈ indexList { paths := [(['a'], 0)], main := some [['a']] } ↔
        (['a'] : Str) ∈
          ledgerKeys (IndexState.paths { paths := [(['a'], 0)], main := some [['a']] })) := by
  have hrun : runOps emptyState [Op.add true true ['a'] 0] =
      some { paths := [(['a'], 0)], main := some [['a']] } := by
    simp [runOps, runOp, Index.add, ledgerInsert, merge_fst_sets, emptyState, indexList]
  exact ⟨hrun, membership_index_equals_ledger_keys _ _ hrun ['a']⟩

/-- C5: `add` fails with the not-a-directory error whenever the filesystem
check fails, regardless of absoluteness (the directory check comes first),
and with the relative-path error when the path is a directory but not
absolute; in both cases the returned state is exactly the input state — no
mutation happened. -/
theorem add_validation_errors (st : IndexState) (p : Str) (t : Nat) (b : Bool) :
    Index.add st false b p t = (.error (.index (.pathDoesNotExist p)), st) ∧
      Index.add st true false p t = (.error (.index (.relativePath p)), st) :=
  ⟨rfl, rfl⟩

/-- C6: re-adding a path already present in the Ledger succeeds, leaves the
Membership Index blob untouched (same element set and count — no rebuild),
keeps the Ledger key set unchanged, and updates only the recorded
timestamp. -/
theorem add_existing_path_updates_timestamp_only (st : IndexState) (p : Str) (t : Nat)
    (hsort : LedgerSorted st.paths) (hp : p ∈ ledgerKeys st.paths) :
    (Index.add st true true p t).1 = .ok () ∧
      ((Index.add st true true p t).2).main = st.main ∧
      indexList (Index.add st true true p t).2 = indexList st ∧
      (indexList (Index.add st true true p t).2).length = (indexList st).length ∧
      ledgerKeys ((Index.add st true true p t).2).paths = ledgerKeys st.paths ∧
      Index.get_timestamp (Index.add st true true p t).2 p = some t := by
  obtain ⟨v, hv⟩ := ledgerInsert_mem_some p t st.paths hsort hp
  have hadd : Index.add st true true p t =
      (.ok (), { paths := (ledgerInsert st.paths p t).2, main := st.main }) := by
    rw [Index.add, hv]
  rw [hadd]
  exact ⟨rfl, rfl, rfl, rfl, ledgerInsert_some_keys p t st.paths v hv,
    ledgerGet_insert_self p t st.paths⟩

theorem add_existing_path_updates_timestamp_only_witness :
    LedgerSorted (IndexState.paths { paths := [(['a'], 0)], main := some [['a']] }) ∧
      (['a'] : Str) ∈
        ledgerKeys (IndexState.paths { paths := [(['a'], 0)], main := some [['a']] }) ∧
      ((Index.add { paths := [(['a'], 0)], main := some [['a']] } true true ['a'] 5).1 =
          .ok () ∧
        ((Index.add { paths := [(['a'], 0)], main := some [['a']] } true true ['a'] 5).2).main =
          IndexState.main { paths := [(['a'], 0)], main := some [['a']] } ∧
        indexList (Index.add { paths := [(['a'], 0)], main := some [['a']] } true true
            ['a'] 5).2 =
          indexList { paths := [(['a'], 0)], main := some [['a']] } ∧
        (indexList (Index.add { paths := [(['a'], 0)], main := some [['a']] } true true
            ['a'] 5).2).length =
          (indexList { paths := [(['a'], 0)], main := some [['a']] }).length ∧
        ledgerKeys ((Index.add { paths := [(['a'], 0)], main := some [['a']] } true true
            ['a'] 5).2).paths =
          ledgerKeys (IndexState.paths { paths := [(['a'], 0)], main := some [['a']] }) ∧
        Index.get_timestamp
            (Index.add { paths := [(['a'], 0)], main := some [['a']] } true true ['a'] 5).2
            ['a'] =
          some 5) :=
  ⟨by decide, by decide,
    add_existing_path_updates_timestamp_only { paths := [(['a'], 0)], main := some [['a']] }
      ['a'] 5 (by decide) (by decide)⟩

/-- C7: deleting a path that is not in the Ledger succeeds and is a complete
no-op: the returned state is exactly the input state, and the
difference-rebuild does not run (the blob is returned unchanged). -/
theorem delete_absent_is_noop (st : IndexState) (p : Str) (hp : p ∉ ledgerKeys st.paths) :
    Index.delete st p = (.ok (), st) := by
  have h := ledgerRemove_not_mem p st.paths hp
  rw [Index.delete]
  rw [show (ledgerRemove st.paths p).1 = none from congrArg Prod.fst h]
  rw [show (ledgerRemove st.paths p).2 = st.paths from congrArg Prod.snd h]

theorem delete_absent_is_noop_witness :
    (['z'] : Str) ∉ ledgerKeys emptyState.paths ∧
      Index.delete emptyState ['z'] = (.ok (), emptyState) :=
  ⟨by decide, delete_absent_is_noop emptyState ['z'] (by decide)⟩

/-- C8: for every index state and exclusion argument, the empty target
short-circuits before any automaton is built: `find_all` returns an empty
sequence and `find_one` returns no match. -/
theorem empty_target_short_circuit (st : IndexState) (scorer : Str → Str → Option Int)
    (ex : Option Str) :
    Index.find_all st [] ex = .ok [] ∧ Index.find_one st scorer [] ex = .ok none :=
  ⟨rfl, rfl⟩

/-- C10 (amended): for every non-empty target whose interpolated pattern
compiles, when no Membership Index blob is stored the search treats the index
as the empty set: `find_all` returns an empty sequence and `find_one` returns
no match, without an error. -/
theorem no_index_blob_empty_results (st : IndexState) (scorer : Str → Str → Option Int)
    (target : Str) (ex : Option Str) (atoms : List QAtom)
    (hmain : st.main = none) (ht : target ≠ []) (hp : parseAtoms target = some atoms) :
    Index.find_all st target ex = .ok [] ∧ Index.find_one st scorer target ex = .ok none := by
  have hidx : indexList st = [] := by
    rw [indexList, hmain]
    rfl
  have hsearch : Index.search st target ex = .ok [] := by
    rw [Index.search, if_neg ht, hp]
    cases ex with
    | none =>
      rw [hidx]
      rfl
    | some q =>
      rw [hidx]
      rfl
  constructor
  · rw [Index.find_all, hsearch]
    rfl
  · rw [Index.find_one, if_neg ht, hsearch]
    rfl

theorem no_index_blob_empty_results_witness :
    emptyState.main = none ∧ (['a'] : Str) ≠ [] ∧
      parseAtoms ['a'] = some [QAtom.lit 'a'] ∧
      (Index.find_all emptyState ['a'] none = .ok [] ∧
        Index.find_one emptyState (fun _ _ => some 0) ['a'] none = .ok none) :=
  ⟨rfl, by decide, by decide,
    no_index_blob_empty_results emptyState (fun _ _ => some 0) ['a'] none [QAtom.lit 'a']
      rfl (by decide) (by decide)⟩

/-- C10 counterexample: the claim quantifies over every non-empty target, but
with no index blob stored a target that fails regex compilation (an
unbalanced parenthesis) makes `find_all` and `find_one` surface the build
error instead of returning empty results. -/
theorem no_index_blob_invalid_regex_error :
    emptyState.main = none ∧ (['('] : Str) ≠ [] ∧
      Index.find_all emptyState ['('] none = .error .regexBuild ∧
      Index.find_one emptyState (fun _ _ => some 0) ['('] none = .error .regexBuild :=
  ⟨rfl, by decide, rfl, rfl⟩

/-- C3 counterexample: with `"x"` indexed, the one-character target `"."` is
returned by the search — the unescaped dot of the interpolated pattern
matches any character — although `"."` is neither a (case-sensitive)
subsequence of `"x"` nor contained in `"x"` as a case-insensitive run. -/
theorem search_returns_regex_artifact :
    Index.find_all { paths := [(['x'], 0)], main := some [['x']] } ['.'] none = .ok [['x']] ∧
      ¬ (['.'] : Str).Sublist ['x'] ∧ containsCI ['.'] ['x'] = false ∧
      subseq ['.'] ['x'] = false :=
  ⟨rfl, by decide, by decide, by decide⟩

/-- C3 (amended): for every non-empty target none of whose characters is a
regex metacharacter, an indexed string is returned by the search backing
`find_all`/`find_one` iff it contains the target's characters in order as a
subsequence, or contains the target as a contiguous case-insensitive run —
and it is not the excluded path. -/
theorem search_characterisation_meta_free (st : IndexState) (target : Str) (ex : Option Str)
    (ht : target ≠ []) (hm : ∀ c ∈ target, isMeta c = false) :
    ∃ l, Index.find_all st target ex = .ok l ∧
      ∀ s, s ∈ l ↔ (s ∈ indexList st ∧
        (target.Sublist s ∨ containsCI target s = true) ∧ ∀ p, ex = some p → s ≠ p) := by
  have hpa := parseAtoms_meta_free target hm
  cases ex with
  | none =>
    refine ⟨(indexList st).filter fun s =>
      subseq target s || atomsSub (target.map fun c => QAtom.lit c.toLower) s, ?_, ?_⟩
    · rw [Index.find_all, Index.search, if_neg ht, hpa]
      show Except.ok (List.map (fun s => s) _) = _
      rw [List.map_id']
    · intro s
      rw [List.mem_filter]
      constructor
      · rintro ⟨hmem, hq⟩
        refine ⟨hmem, ?_, fun p hp => by cases hp⟩
        rw [Bool.or_eq_true] at hq
        rcases hq with h | h
        · exact Or.inl ((subseq_iff_sublist target s).mp h)
        · refine Or.inr ?_
          rw [← atomsSub_lit target s]
          exact h
      · rintro ⟨hmem, hsub, _⟩
        refine ⟨hmem, ?_⟩
        rw [Bool.or_eq_true]
        rcases hsub with h | h
        · exact Or.inl ((subseq_iff_sublist target s).mpr h)
        · refine Or.inr ?_
          rw [atomsSub_lit target s]
          exact h
  | some p =>
    refine ⟨(indexList st).filter fun s =>
      (subseq target s || atomsSub (target.map fun c => QAtom.lit c.toLower) s) &&
        decide (s ≠ p), ?_, ?_⟩
    · rw [Index.find_all, Index.search, if_neg ht, hpa]
      show Except.ok (List.map (fun s => s) _) = _
      rw [List.map_id']
    · intro s
      rw [List.mem_filter]
      constructor
      · rintro ⟨hmem, hq⟩
        rw [Bool.and_eq_true] at hq
        obtain ⟨hq1, hq2⟩ := hq
        rw [Bool.or_eq_true] at hq1
        refine ⟨hmem, ?_, ?_⟩
        · rcases hq1 with h | h
          · exact Or.inl ((subseq_iff_sublist target s).mp h)
          · refine Or.inr ?_
            rw [← atomsSub_lit target s]
            exact h
        · intro p' hp'
          injection hp' with hp'
          subst hp'
          exact of_decide_eq_true hq2
      · rintro ⟨hmem, hsub, hne⟩
        refine ⟨hmem, ?_⟩
        rw [Bool.and_eq_true, Bool.or_eq_true]
        refine ⟨?_, ?_⟩
        · rcases hsub with h | h
          · exact Or.inl ((subseq_iff_sublist target s).mpr h)
          · refine Or.inr ?_
            rw [atomsSub_lit target s]
            exact h
        · exact decide_eq_true (hne p rfl)

theorem search_characterisation_meta_free_witness :
    (['a'] : Str) ≠ [] ∧ (∀ c ∈ (['a'] : Str), isMeta c = false) ∧
      (∃ l, Index.find_all { paths := [(['a', 'b'], 0)], main := some [['a', 'b']] }
          ['a'] none = .ok l ∧
        ∀ s, s ∈ l ↔ (s ∈ indexList { paths := [(['a', 'b'], 0)], main := some [['a', 'b']] } ∧
          ((['a'] : Str).Sublist s ∨ containsCI ['a'] s = true) ∧
          ∀ p, (none : Option Str) = some p → s ≠ p)) :=
  ⟨by decide, by decide,
    search_characterisation_meta_free { paths := [(['a', 'b'], 0)], main := some [['a', 'b']] }
      ['a'] none (by decide) (by decide)⟩

/-- C4: the excluded path never appears in the output of `find_all` and is
never the path returned by `find_one`, regardless of target or state; and
when every index entry matching the query automaton is the excluded path,
`find_one` returns no match. -/
theorem excluded_path_never_returned (st : IndexState) (scorer : Str → Str → Option Int)
    (target p : Str) (l : List Str) (r : Option Str)
    (hl : Index.find_all st target (some p) = .ok l)
    (hr : Index.find_one st scorer target (some p) = .ok r) :
    p ∉ l ∧ r ≠ some p ∧
      ((∀ q ∈ indexList st, (subseq target q = true ∨
          (∃ atoms, parseAtoms target = some atoms ∧ atomsSub atoms q = true)) → q = p) →
        r = none) := by
  by_cases ht : target = []
  · subst ht
    have hl0 : (Except.ok [] : Except EngineError (List Str)) = .ok l := by
      rw [← hl]
      rfl
    have hr0 : (Except.ok none : Except EngineError (Option Str)) = .ok r := by
      rw [← hr]
      rfl
    injection hl0 with hl0
    injection hr0 with hr0
    subst hl0
    subst hr0
    exact ⟨List.not_mem_nil p, by simp, fun _ => rfl⟩
  · cases hpa : parseAtoms target with
    | none =>
      rw [Index.find_all, Index.search, if_neg ht, hpa] at hl
      cases hl
    | some atoms =>
      have hsearch : Index.search st target (some p) =
          .ok ((indexList st).filter fun s =>
            (subseq target s || atomsSub atoms s) && decide (s ≠ p)) := by
        rw [Index.search, if_neg ht, hpa]
      have hl' : l = (indexList st).filter fun s =>
          (subseq target s || atomsSub atoms s) && decide (s ≠ p) := by
        rw [Index.find_all, hsearch] at hl
        injection hl with hl
        rw [← hl]
        simp only [List.map_id']
      have hr' : r = ((Index.get_best_score st (score_results scorer
          ((indexList st).filter fun s =>
            (subseq target s || atomsSub atoms s) && decide (s ≠ p)) target)).1).map
          Score.path := by
        rw [Index.find_one, if_neg ht, hsearch] at hr
        injection hr with hr
        rw [hr]
      refine ⟨?_, ?_, ?_⟩
      · rw [hl']
        intro hmem
        have h2 := (List.mem_filter.mp hmem).2
        rw [Bool.and_eq_true] at h2
        exact (of_decide_eq_true h2.2) rfl
      · rw [hr']
        cases hgb : (Index.get_best_score st (score_results scorer
            ((indexList st).filter fun s =>
              (subseq target s || atomsSub atoms s) && decide (s ≠ p)) target)).1 with
        | none => simp
        | some b =>
          have hne : score_results scorer ((indexList st).filter fun s =>
              (subseq target s || atomsSub atoms s) && decide (s ≠ p)) target ≠ [] := by
            intro h0
            rw [h0] at hgb
            cases hgb
          obtain ⟨b', hb1, ⟨x0, hx0, hbp, -⟩, -⟩ := get_best_score_spec st _ hne
          rw [hgb] at hb1
          injection hb1 with hb1
          subst hb1
          obtain ⟨q0, hq0, hx0eq⟩ := List.mem_map.mp hx0
          have hbp' : b.path = q0 := by
            rw [hbp, ← hx0eq]
          have hq0ne : decide (q0 ≠ p) = true := by
            have h2 := (List.mem_filter.mp hq0).2
            rw [Bool.and_eq_true] at h2
            exact h2.2
          simp only [Option.map_some', ne_eq, Option.some.injEq]
          intro hcontra
          rw [hbp'] at hcontra
          exact (of_decide_eq_true hq0ne) hcontra
      · intro honly
        have hfilt : ((indexList st).filter fun s =>
            (subseq target s || atomsSub atoms s) && decide (s ≠ p)) = [] := by
          rw [List.filter_eq_nil]
          intro q hq
          intro hcontra
          rw [Bool.and_eq_true, Bool.or_eq_true] at hcontra
          obtain ⟨h1, h2⟩ := hcontra
          have hqp : q = p := by
            refine honly q hq ?_
            rcases h1 with h | h
            · exact Or.inl h
            · exact Or.inr ⟨atoms, rfl, h⟩
          exact (of_decide_eq_true h2) hqp
        rw [hr', hfilt]
        rfl

theorem excluded_path_never_returned_witness :
    (['a', 'b'] : Str) ∉ ([] : List Str) ∧ (none : Option Str) ≠ some ['a', 'b'] ∧
      ((∀ q ∈ indexList { paths := [(['a', 'b'], 0)], main := some [['a', 'b']] },
          (subseq ['a'] q = true ∨
            (∃ atoms, parseAtoms ['a'] = some atoms ∧ atomsSub atoms q = true)) →
          q = ['a', 'b']) →
        (none : Option Str) = none) :=
  excluded_path_never_returned { paths := [(['a', 'b'], 0)], main := some [['a', 'b']] }
    (fun _ _ => some 0) ['a'] ['a', 'b'] [] none rfl rfl

/-- C2: for a non-empty target and non-empty candidate set, `find_one`
returns a candidate of maximal fuzzy score; Ledger timestamps are fetched
only for max-score candidates and not at all when the maximum is unique;
among score-ties the winner's Ledger timestamp is maximal (so of two
equally-scoring candidates the more recently added one is returned); a full
tie is resolved deterministically, by path order. -/
theorem find_one_max_score_recency (st : IndexState) (scorer : Str → Str → Option Int)
    (target : Str) (ex : Option Str) (results : List Str)
    (ht : target ≠ []) (hs : Index.search st target ex = .ok results) (hne : results ≠ []) :
    ∃ p, Index.find_one st scorer target ex = .ok (some p) ∧ p ∈ results ∧
      (∀ q ∈ results, (scorer q target).getD 0 ≤ (scorer p target).getD 0) ∧
      (∀ q ∈ results, (scorer q target).getD 0 = (scorer p target).getD 0 →
        optLe (Index.get_timestamp st q) (Index.get_timestamp st p) = true) ∧
      (∀ q ∈ results, (scorer q target).getD 0 = (scorer p target).getD 0 →
        Index.get_timestamp st q = Index.get_timestamp st p → (strLt q p ∨ q = p)) ∧
      (∀ q ∈ (Index.get_best_score st (score_results scorer results target)).2,
        q ∈ results ∧ (scorer q target).getD 0 = (scorer p target).getD 0) ∧
      ((results.countP fun q =>
          decide ((scorer q target).getD 0 = (scorer p target).getD 0)) ≤ 1 →
        (Index.get_best_score st (score_results scorer results target)).2 = []) := by
  have hsvne : score_results scorer results target ≠ [] := by
    rw [score_results]
    simpa using hne
  obtain ⟨b, hb1, ⟨x0, hx0mem, hbpath, hbscore⟩, hmax, hfetch, hcount, hrec, hpathdet⟩ :=
    get_best_score_spec st (score_results scorer results target) hsvne
  rw [score_results] at hx0mem
  obtain ⟨q0, hq0, hx0eq⟩ := List.mem_map.mp hx0mem
  have hbp : b.path = q0 := by
    rw [hbpath, ← hx0eq]
  have hbs : b.score = (scorer q0 target).getD 0 := by
    rw [hbscore, ← hx0eq]
  refine ⟨q0, ?_, hq0, ?_, ?_, ?_, ?_, ?_⟩
  · rw [Index.find_one, if_neg ht, hs]
    show Except.ok
        ((Index.get_best_score st (score_results scorer results target)).1.map Score.path) = _
    rw [hb1]
    simp only [Option.map_some']
    rw [hbp]
  · intro q hq
    rw [← hbs]
    exact hmax _ (by rw [score_results]; exact List.mem_map.mpr ⟨q, hq, rfl⟩)
  · intro q hq heq
    have hmem : ({ path := q, score := (scorer q target).getD 0, timestamp := none } : Score) ∈
        score_results scorer results target := by
      rw [score_results]
      exact List.mem_map.mpr ⟨q, hq, rfl⟩
    have h := hrec _ hmem (by rw [hbs]; exact heq)
    rw [hbp] at h
    exact h
  · intro q hq heq hts
    have hmem : ({ path := q, score := (scorer q target).getD 0, timestamp := none } : Score) ∈
        score_results scorer results target := by
      rw [score_results]
      exact List.mem_map.mpr ⟨q, hq, rfl⟩
    have h := hpathdet _ hmem (by rw [hbs]; exact heq) (by rw [hbp]; exact hts)
    rw [hbp] at h
    exact h
  · intro q hq2
    obtain ⟨x, hxmem, hqx, hxs⟩ := hfetch q hq2
    rw [score_results] at hxmem
    obtain ⟨q', hq', hq'x⟩ := List.mem_map.mp hxmem
    have hqq' : q = q' := by
      rw [hqx, ← hq'x]
    refine ⟨hqq' ▸ hq', ?_⟩
    have hxscore : x.score = (scorer q' target).getD 0 := by
      rw [← hq'x]
    rw [hqq', ← hxscore, hxs, hbs]
  · intro h1
    apply hcount
    rw [score_results, List.countP_map]
    have hpred : ((fun x : Score => decide (x.score = b.score)) ∘ fun item =>
        ({ path := item, score := (scorer item target).getD 0, timestamp := none } : Score)) =
        fun q => decide ((scorer q target).getD 0 = (scorer q0 target).getD 0) := by
      funext q
      show decide ((scorer q target).getD 0 = b.score) = _
      rw [hbs]
    rw [hpred]
    exact h1

theorem find_one_max_score_recency_witness :
    (['a'] : Str) ≠ [] ∧
      Index.search { paths := [(['a'], 3)], main := some [['a']] } ['a'] none = .ok [['a']] ∧
      ([['a']] : List Str) ≠ [] ∧
      (∃ p, Index.find_one { paths := [(['a'], 3)], main := some [['a']] } constScorer
          ['a'] none = .ok (some p) ∧ p ∈ [['a']] ∧
        (∀ q ∈ ([['a']] : List Str),
          (constScorer q ['a']).getD 0 ≤ (constScorer p ['a']).getD 0) ∧
        (∀ q ∈ ([['a']] : List Str),
          (constScorer q ['a']).getD 0 = (constScorer p ['a']).getD 0 →
          optLe (Index.get_timestamp { paths := [(['a'], 3)], main := some [['a']] } q)
            (Index.get_timestamp { paths := [(['a'], 3)], main := some [['a']] } p) = true) ∧
        (∀ q ∈ ([['a']] : List Str),
          (constScorer q ['a']).getD 0 = (constScorer p ['a']).getD 0 →
          Index.get_timestamp { paths := [(['a'], 3)], main := some [['a']] } q =
            Index.get_timestamp { paths := [(['a'], 3)], main := some [['a']] } p →
          (strLt q p ∨ q = p)) ∧
        (∀ q ∈ (Index.get_best_score { paths := [(['a'], 3)], main := some [['a']] }
            (score_results constScorer [['a']] ['a'])).2,
          q ∈ [['a']] ∧ (constScorer q ['a']).getD 0 = (constScorer p ['a']).getD 0) ∧
        ((([['a']] : List Str).countP fun q =>
            decide ((constScorer q ['a']).getD 0 = (constScorer p ['a']).getD 0)) ≤ 1 →
          (Index.get_best_score { paths := [(['a'], 3)], main := some [['a']] }
            (score_results constScorer [['a']] ['a'])).2 = [])) :=
  ⟨by decide, rfl, by decide,
    find_one_max_score_recency { paths := [(['a'], 3)], main := some [['a']] } constScorer
      ['a'] none [['a']] (by decide) rfl (by decide)⟩

end Scotty
